import Mathlib

/-!
Verification of the payroll-invoicer allocation and invoice aggregation engine.

The TypeScript sources are shallowly embedded:
JavaScript numbers are modelled as rationals, with an explicit constructor
for the non-finite values (NaN and the infinities) where the code tests
isFinite; Record and Map objects are modelled as insertion-ordered
association lists; Array.prototype.sort and String.prototype.localeCompare
are modelled as a stable insertion sort under code-point string order
(the property keys occurring in this repository are ASCII).
-/

set_option autoImplicit false

namespace PayrollInvoicer

/-- Model of a JavaScript number: a finite rational, or a non-finite value. -/
inductive JNum where
  | fin (q : ℚ)
  | nan
  | inf
  | ninf
deriving DecidableEq, Repr

/-- Insertion-ordered association list, modelling a JS Record or Map. -/
abbrev Assoc (K : Type) (α : Type) := List (K × α)

/-- Lookup of a key, first match wins (JS property read). -/
def lookupA {K α : Type} [DecidableEq K] (m : Assoc K α) (k : K) : Option α :=
  match m with
  | [] => none
  | (k1, v) :: rest => if k1 = k then some v else lookupA rest k

/-- Write a key: overwrite in place when present, append otherwise (JS property write, Map.set). -/
def setA {K α : Type} [DecidableEq K] (m : Assoc K α) (k : K) (v : α) : Assoc K α :=
  match m with
  | [] => [(k, v)]
  | (k1, v1) :: rest => if k1 = k then (k1, v) :: rest else (k1, v1) :: setA rest k v

/-- Keys of an association list, in insertion order. -/
def keysA {K α : Type} (m : Assoc K α) : List K := m.map Prod.fst

/-- Sum of the rational values of an association list. -/
def recSum {K : Type} (m : Assoc K ℚ) : ℚ := (m.map Prod.snd).sum

/-- Character class after lowercasing: keep lowercase ASCII letters and digits, map everything else to a space (the replace of characters outside a-z, 0-9 and whitespace composed with collapsing whitespace). -/
def lowerKeep (c : Char) : Char :=
  let d := c.toLower
  if ('a' ≤ d ∧ d ≤ 'z') ∨ ('0' ≤ d ∧ d ≤ '9') then d else ' '

/-- Collapse runs of spaces to a single space. -/
def collapseSp : List Char → List Char
  | [] => []
  | [c] => [c]
  | a :: b :: rest =>
    if a = ' ' ∧ b = ' ' then collapseSp (b :: rest)
    else a :: collapseSp (b :: rest)

/-- Drop leading and trailing spaces. -/
def trimSp (l : List Char) : List Char :=
  ((l.dropWhile (· = ' ')).reverse.dropWhile (· = ' ')).reverse

/-- Drop leading and trailing whitespace, modelling the trim of JS strings. -/
def trimWs (l : List Char) : List Char :=
  ((l.dropWhile Char.isWhitespace).reverse.dropWhile Char.isWhitespace).reverse

/-- String-level whitespace trim. -/
def jsTrim (s : String) : String := String.mk (trimWs s.toList)

/-- Whether the second character list is a leading segment of the first. -/
def startsWithL : List Char → List Char → Bool
  | _, [] => true
  | [], _ :: _ => false
  | a :: as, b :: bs => if a = b then startsWithL as bs else false

/-- Name normalization from buildInvoices.ts: lowercase, replace characters outside a-z, 0-9 and whitespace by a space, collapse whitespace, trim. -/
def normName (s : String) : String :=
  String.mk (trimSp (collapseSp (s.toList.map lowerKeep)))

/-- Split a character list at every space, keeping empty chunks, as the JS split on a single space does. -/
def splitSp (l : List Char) : List (List Char) :=
  match l with
  | [] => [[]]
  | c :: cs =>
    let r := splitSp cs
    if c = ' ' then [] :: r
    else
      match r with
      | [] => [[c]]
      | t :: ts => (c :: t) :: ts

/-- Last-name key from buildInvoices.ts: last whitespace-delimited token of the normalized name, or the whole normalized name when there are no tokens. -/
def lastName (s : String) : String :=
  let n := normName s
  let parts := ((splitSp n.toList).map String.mk).filter (· ≠ "")
  (parts.getLast?).getD n

/-- First initial from buildInvoices.ts: the first character of the normalized name as a one-character string, or the empty string. -/
def firstInitial (s : String) : String :=
  let n := normName s
  match n.toList with
  | [] => ""
  | c :: _ => String.mk [c]

/-- Code-point comparison of character lists. -/
def cpLe : List Char → List Char → Bool
  | [], _ => true
  | _ :: _, [] => false
  | a :: as, b :: bs =>
    if a.toNat < b.toNat then true
    else if b.toNat < a.toNat then false
    else cpLe as bs

/-- Code-point string order, modelling localeCompare and the default Array sort on the ASCII keys used here. -/
def strLe (a b : String) : Bool := cpLe a.toList b.toList

/-- Insert into a sorted list, before the first element it is ordered at-or-before (stable). -/
def insertLe {α : Type} (le : α → α → Bool) (a : α) : List α → List α
  | [] => [a]
  | b :: bs => if le a b then a :: b :: bs else b :: insertLe le a bs

/-- Stable insertion sort. -/
def sortByLe {α : Type} (le : α → α → Bool) (l : List α) : List α :=
  l.foldr (insertLe le) []

/-- Dedup keeping first occurrences, modelling iteration order of a JS Set. -/
def dedupFirstAux (seen : List String) : List String → List String
  | [] => []
  | a :: as => if a ∈ seen then dedupFirstAux seen as else a :: dedupFirstAux (a :: seen) as

/-- First-occurrence dedup of a list of strings. -/
def dedupFirst (l : List String) : List String := dedupFirstAux [] l

/-! Embedding of src/lib/invoicing/buildInvoices.ts (the currently exported
definition, lines 106 to 250 of the concatenated file). -/

namespace Invoicing

/-- Invoice line keys, including the total pseudo-line that add may be called with. -/
inductive Line where
  | salaryREC | salaryNR | overtime | holREC | holNR | er401k | total
deriving DecidableEq, Repr

/-- Audit record pushed into a breakdown list. -/
structure Contribution where
  employee : String
  amount : ℚ
  allocPct : Option ℚ
  baseAmount : Option ℚ
deriving DecidableEq, Repr

/-- One invoice per property, as in lib/types.ts plus the propertyName field the code writes. -/
structure PropertyInvoice where
  propertyKey : String
  propertyLabel : String
  propertyName : String
  salaryREC : ℚ
  salaryNR : ℚ
  overtime : ℚ
  holREC : ℚ
  holNR : ℚ
  er401k : ℚ
  total : ℚ
  breakdown : Assoc Line (List Contribution)
deriving DecidableEq, Repr

/-- One payroll register row: name and the four base pay amounts. -/
structure PayrollEmployee where
  name : String
  salaryAmt : ℚ
  overtimeAmt : ℚ
  holAmt : ℚ
  er401k : ℚ
deriving DecidableEq, Repr

/-- Payroll parse result: the employee list (the other fields are unused by buildInvoices). -/
structure PayrollParseResult where
  employees : List PayrollEmployee
deriving DecidableEq, Repr

/-- One allocation sheet row: name, recoverable flag, raw allocation map. -/
structure AllocationEmployee where
  name : String
  recoverable : Bool
  allocations : Assoc String JNum
deriving DecidableEq, Repr

/-- Property metadata: key, label and the optional display name (empty when absent). -/
structure Property where
  key : String
  label : String
  name : String
deriving DecidableEq, Repr

/-- Allocation table: property list and allocation employee list. -/
structure AllocationTable where
  properties : List Property
  employees : List AllocationEmployee
deriving DecidableEq, Repr

/-- Percentage picker from buildInvoices.ts: zero when non-finite or not positive, divided by 100 above 1.5, unchanged otherwise. -/
def pickAllocPct : JNum → ℚ
  | .fin raw => if raw ≤ 0 then 0 else if 3/2 < raw then raw / 100 else raw
  | _ => 0

/-- Read one numeric line field of an invoice. -/
def getLine (inv : PropertyInvoice) : Line → ℚ
  | .salaryREC => inv.salaryREC
  | .salaryNR => inv.salaryNR
  | .overtime => inv.overtime
  | .holREC => inv.holREC
  | .holNR => inv.holNR
  | .er401k => inv.er401k
  | .total => inv.total

/-- Write one numeric line field of an invoice. -/
def setLine (inv : PropertyInvoice) : Line → ℚ → PropertyInvoice
  | .salaryREC, q => { inv with salaryREC := q }
  | .salaryNR, q => { inv with salaryNR := q }
  | .overtime, q => { inv with overtime := q }
  | .holREC, q => { inv with holREC := q }
  | .holNR, q => { inv with holNR := q }
  | .er401k, q => { inv with er401k := q }
  | .total, q => { inv with total := q }

/-- Mutation applied to one invoice by the add helper: bump the line field, append the contribution to the breakdown list of that line, and bump total for every non-total line. -/
def bumpInv (inv : PropertyInvoice) (line : Line) (amount : ℚ) (employee : String)
    (allocPct : Option ℚ) (baseAmount : Option ℚ) : PropertyInvoice :=
  let inv1 := setLine inv line (getLine inv line + amount)
  let bd := setA inv1.breakdown line
    ((lookupA inv1.breakdown line).getD [] ++ [⟨employee, amount, allocPct, baseAmount⟩])
  let inv2 := { inv1 with breakdown := bd }
  if line ≠ Line.total then { inv2 with total := inv2.total + amount } else inv2

/-- The add helper of buildInvoices: skip dust below 1e-5 or an unknown property key; otherwise apply the invoice mutation at the property key. -/
def add (invByKey : Assoc String PropertyInvoice) (propKey : String) (line : Line)
    (amount : ℚ) (employee : String) (allocPct : Option ℚ) (baseAmount : Option ℚ) :
    Assoc String PropertyInvoice :=
  if amount = 0 ∨ |amount| < 1/100000 then invByKey
  else
    match lookupA invByKey propKey with
    | none => invByKey
    | some inv => setA invByKey propKey (bumpInv inv line amount employee allocPct baseAmount)

/-- Full-name index over allocation employees, later rows overwriting earlier ones. -/
def buildByFull (es : List AllocationEmployee) : Assoc String AllocationEmployee :=
  es.foldl (fun m ae => setA m (normName ae.name) ae) []

/-- Last-name index over allocation employees, preserving row order within a key. -/
def buildByLast (es : List AllocationEmployee) : Assoc String (List AllocationEmployee) :=
  es.foldl (fun m ae => setA m (lastName ae.name) ((lookupA m (lastName ae.name)).getD [] ++ [ae])) []

/-- Identity resolver of buildInvoices: exact normalized-name match, else the single last-name candidate, else a first-initial match, else the first candidate (none when there are no candidates). -/
def findAlloc (byFull : Assoc String AllocationEmployee)
    (byLast : Assoc String (List AllocationEmployee)) (empName : String) :
    Option AllocationEmployee :=
  match lookupA byFull (normName empName) with
  | some direct => some direct
  | none =>
    let candidates := (lookupA byLast (lastName empName)).getD []
    if candidates.length = 1 then candidates.head?
    else
      match candidates.find? (fun c => firstInitial c.name = firstInitial empName) with
      | some m => some m
      | none => candidates.head?

/-- Process one entry of a resolved allocation map: the five add calls of the inner loop. -/
def addEntry (emp : PayrollEmployee) (isRec : Bool)
    (s : Assoc String PropertyInvoice) (kv : String × JNum) : Assoc String PropertyInvoice :=
  let pct := pickAllocPct kv.2
  if pct = 0 then s
  else
    let baseSalary := emp.salaryAmt
    let baseOT := emp.overtimeAmt
    let baseHol := emp.holAmt
    let baseEr := emp.er401k
    let salaryLine : Line := if isRec then .salaryREC else .salaryNR
    let holLine : Line := if isRec then .holREC else .holNR
    let s1 := add s kv.1 salaryLine (baseSalary * pct) emp.name (some pct) (some baseSalary)
    let s2 := add s1 kv.1 .overtime (baseOT * pct) emp.name (some pct) (some baseOT)
    let s3 := add s2 kv.1 holLine (baseHol * pct) emp.name (some pct) (some baseHol)
    let s4 := add s3 kv.1 .er401k (baseEr * pct) emp.name (some pct) (some baseEr)
    let totalBase := baseSalary + baseOT + baseHol + baseEr
    add s4 kv.1 .total (totalBase * pct) emp.name (some pct) (some totalBase)

/-- Process one payroll employee: resolve the allocation record and fold its entries, or skip. -/
def processEmployee (byFull : Assoc String AllocationEmployee)
    (byLast : Assoc String (List AllocationEmployee))
    (s : Assoc String PropertyInvoice) (emp : PayrollEmployee) : Assoc String PropertyInvoice :=
  match findAlloc byFull byLast emp.name with
  | none => s
  | some a => a.allocations.foldl (addEntry emp a.recoverable) s

/-- Zero-filled invoice seeded for one property. -/
def seedInvoice (p : Property) : PropertyInvoice :=
  ⟨p.key, p.label, p.name, 0, 0, 0, 0, 0, 0, 0, []⟩

/-- Seed the invoice map with one zero-filled invoice per property. -/
def seedInvoices (props : List Property) : Assoc String PropertyInvoice :=
  props.foldl (fun m p => setA m p.key (seedInvoice p)) []

/-- Concatenation of every allocation key of every allocation employee, in iteration order. -/
def allocKeys (es : List AllocationEmployee) : List String :=
  es.foldl (fun acc ae => acc ++ keysA ae.allocations) []

/-- Derived property list used when the property list is empty or absent: the sorted first-occurrence union of the allocation keys, each key serving as its own label, with an empty name. -/
def deriveProps (es : List AllocationEmployee) : List Property :=
  (sortByLe strLe (dedupFirst (allocKeys es))).map (fun k => ⟨k, k, ""⟩)

/-- Math.round semantics on rationals: floor of the value plus one half. -/
def jsRound (q : ℚ) : ℤ := ⌊q + 1/2⌋

/-- Round to two decimals the way the code does: Math.round of 100 times the value, divided by 100. -/
def round2 (q : ℚ) : ℚ := (jsRound (q * 100) : ℚ) / 100

/-- Final rounding pass over the seven numeric fields of an invoice. -/
def roundInvoice (inv : PropertyInvoice) : PropertyInvoice :=
  { inv with
    salaryREC := round2 inv.salaryREC,
    salaryNR := round2 inv.salaryNR,
    overtime := round2 inv.overtime,
    holREC := round2 inv.holREC,
    holNR := round2 inv.holNR,
    er401k := round2 inv.er401k,
    total := round2 inv.total }

/-- The invoice engine: seed per-property invoices (derived from allocation keys when the property list is empty), index allocation employees, fold the payroll employees through the accumulator, round every numeric field, and sort by property key. -/
def buildInvoices (payroll : PayrollParseResult) (allocation : AllocationTable) :
    List PropertyInvoice :=
  let props := if allocation.properties = [] then deriveProps allocation.employees
               else allocation.properties
  let invByKey := seedInvoices props
  let byFull := buildByFull allocation.employees
  let byLast := buildByLast allocation.employees
  let final := payroll.employees.foldl (processEmployee byFull byLast) invByKey
  let out := final.map (fun kv => roundInvoice kv.2)
  sortByLe (fun a b => strLe a.propertyKey b.propertyKey) out

end Invoicing

/-- Modelled from the spec: the normalizeWeights helper is imported by the allocation route from lib/utils, but its definition is not among the sources; section 4.1 of the spec describes it as dividing every entry of a split map by the map's own sum so the total becomes exactly 1, with a zero-sum map normalizing to the empty map. -/
def normalizeWeights (w : Assoc String ℚ) : Assoc String ℚ :=
  let s := recSum w
  if s = 0 then [] else w.map (fun kv => (kv.1, kv.2 / s))

/-! Embedding of the allocation-workbook route in src/unnamed/part_011:
the per-employee weight expansion of parseAllocationWorkbook (lines 136 to 190)
together with its helpers applyDist, normalizePct and normGroup. -/

namespace ParseAllocation

/-- Scalar percent normalizer of the allocation route: zero when non-finite, divided by 100 above 1.000001, unchanged otherwise (negative values pass through). -/
def normalizePct : JNum → ℚ
  | .fin q => if 1000001/1000000 < q then q / 100 else q
  | _ => 0

/-- Group-name normalizer: trim, collapse whitespace runs to single spaces, uppercase, then canonical group spellings by leading-segment tests. -/
def normGroup (s : String) : String :=
  let t := String.mk ((collapseSp ((trimWs s.toList).map (fun c => if c.isWhitespace then ' ' else c))).map Char.toUpper)
  if startsWithL t.toList "NI LLC".toList then "NI LLC"
  else if startsWithL t.toList "JV III".toList then "JV III"
  else if startsWithL t.toList "JV IIII".toList then "JV III"
  else if t = "SC" then "SC"
  else if t = "MARKETING" then "MARKETING"
  else t

/-- Accumulate into a weight map: target of k becomes its previous value (default 0) plus x. -/
def recAdd (m : Assoc String ℚ) (k : String) (x : ℚ) : Assoc String ℚ :=
  setA m k ((lookupA m k).getD 0 + x)

/-- Distribute pct across a split map: each entry is scalar-normalized on its own, non-positive shares are skipped, and pct times the share is added per property. The map is not renormalized to sum 1. -/
def applyDist (target : Assoc String ℚ) (dist : Assoc String JNum) (pct : ℚ) : Assoc String ℚ :=
  dist.foldl (fun t kv =>
    let w := normalizePct kv.2
    if w ≤ 0 then t else recAdd t kv.1 (pct * w)) target

/-- The redistribution tables parsed from the workbook, plus the marketing cascade table. -/
structure Tables where
  scREC : Assoc String JNum
  scNR : Assoc String JNum
  niREC : Assoc String JNum
  niNR : Assoc String JNum
  jvPRS : Assoc String JNum
  mktGroups : Assoc String JNum
deriving DecidableEq, Repr

/-- One row of the top allocation table: name, recoverable flag, raw per-column allocation. -/
structure EmployeeTop where
  name : String
  recoverable : Bool
  topAlloc : Assoc String JNum
deriving DecidableEq, Repr

/-- Direct property-code mapping baked into the route (column header to key and label). -/
def directMap : Assoc String (String × String) :=
  [("LIK", ("2010", "LIK (2010)")),
   ("Office Works", ("4900", "Office Works (4900)")),
   ("Interstate", ("0800", "Interstate (0800)")),
   ("Eastwick", ("1500", "Eastwick (1500)")),
   ("Middeltown", ("MIDDLETOWN", "Middletown")),
   ("Middletown", ("MIDDLETOWN", "Middletown"))]

/-- One iteration of the marketing cascade loop: scalar-normalize the group share, skip a non-positive subtotal, and distribute through the non-recoverable-regime table of the group. -/
def marketingStep (tb : Tables) (pct : ℚ) (w : Assoc String ℚ) (kv : String × JNum) :
    Assoc String ℚ :=
  let sub := pct * normalizePct kv.2
  if sub ≤ 0 then w
  else if kv.1 = "SC" then applyDist w tb.scNR sub
  else if kv.1 = "NI LLC" then applyDist w tb.niNR sub
  else if kv.1 = "JV III" then applyDist w tb.jvPRS sub
  else w

/-- Marketing branch of the expansion: iterate the cascade table, scalar-normalize each group share, skip non-positive subtotals, and distribute through the non-recoverable-regime tables scNR, niNR and jvPRS. -/
def marketingApply (tb : Tables) (w : Assoc String ℚ) (pct : ℚ) : Assoc String ℚ :=
  tb.mktGroups.foldl (marketingStep tb pct) w

/-- One entry of the expansion loop: normalize the raw percent, skip non-positive, then branch on direct property, SC, NI LLC, JV III, marketing, or ignore. -/
def stepEntry (tb : Tables) (recoverable : Bool) (w : Assoc String ℚ) (kv : String × JNum) :
    Assoc String ℚ :=
  let pct := normalizePct kv.2
  if pct ≤ 0 then w
  else
    let c := jsTrim kv.1
    match lookupA directMap c with
    | some kl => recAdd w kl.1 pct
    | none =>
      let g := normGroup c
      if g = "SC" then applyDist w (if recoverable then tb.scREC else tb.scNR) pct
      else if g = "NI LLC" then applyDist w (if recoverable then tb.niREC else tb.niNR) pct
      else if g = "JV III" then applyDist w tb.jvPRS pct
      else if g = "MARKETING" then marketingApply tb w pct
      else w

/-- Raw weight map accumulated for one employee, before the final whole-map normalization. -/
def expandRaw (tb : Tables) (e : EmployeeTop) : Assoc String ℚ :=
  e.topAlloc.foldl (stepEntry tb e.recoverable) []

/-- The weightsByProperty value pushed for one employee: the raw weights whole-map normalized. -/
def expandEmployee (tb : Tables) (e : EmployeeTop) : Assoc String ℚ :=
  normalizeWeights (expandRaw tb e)

/-- Sum over the allocation-map entries of the per-entry normalized percents. -/
def entryPctSum (e : EmployeeTop) : ℚ :=
  (e.topAlloc.map (fun kv => normalizePct kv.2)).sum

/-- Sum of the positive scalar-normalized shares of a split map: exactly what one applyDist pass distributes per unit of pct. -/
def posShareSum (d : Assoc String JNum) : ℚ :=
  (d.map (fun kv => let w := normalizePct kv.2; if w ≤ 0 then 0 else w)).sum

/-- Follows the spec's words for the marketing bullet of section 4.3, for comparison with the code: iterate the map-normalized cascade table, look up the non-recoverable split map per group, map-normalize it, and add p times groupShare times share per property. -/
def marketingSpecApply (cascade scNRq niNRq jvPRSq : Assoc String ℚ)
    (w : Assoc String ℚ) (p : ℚ) : Assoc String ℚ :=
  (normalizeWeights cascade).foldl (fun w g =>
    let dist := if g.1 = "SC" then scNRq
                else if g.1 = "NI LLC" then niNRq
                else if g.1 = "JV III" then jvPRSq
                else []
    (normalizeWeights dist).foldl (fun w kv => recAdd w kv.1 (p * g.2 * kv.2)) w) w

end ParseAllocation

/-! Embedding of the ensureInv helper of the older buildInvoices variant in
src/unnamed/part_006 (lines 56 to 72): create a zero-filled invoice on demand
for a missing property key, with the label falling back to the key. -/

namespace Part006

/-- Create the invoice for a property key when absent, label falling back to the key when no non-empty label is supplied; an existing invoice is kept untouched. -/
def ensureInv (invByKey : Assoc String Invoicing.PropertyInvoice) (propertyKey : String)
    (label : Option String) : Assoc String Invoicing.PropertyInvoice :=
  match lookupA invByKey propertyKey with
  | some _ => invByKey
  | none =>
    let lbl := match label with
      | some s => if s = "" then propertyKey else s
      | none => propertyKey
    setA invByKey propertyKey ⟨propertyKey, lbl, "", 0, 0, 0, 0, 0, 0, 0, []⟩

end Part006

/-! Helper lemmas about association lists. -/

theorem lookupA_setA_self {K α : Type} [DecidableEq K] (m : Assoc K α) (k : K) (v : α) :
    lookupA (setA m k v) k = some v := by
  induction m with
  | nil => simp [setA, lookupA]
  | cons hd tl ih =>
    obtain ⟨k1, v1⟩ := hd
    by_cases h : k1 = k
    · simp [setA, lookupA, h]
    · simp [setA, lookupA, h, ih]

theorem mem_keysA_of_lookupA {K α : Type} [DecidableEq K] {m : Assoc K α} {k : K} {v : α}
    (h : lookupA m k = some v) : k ∈ keysA m := by
  induction m with
  | nil => simp [lookupA] at h
  | cons hd tl ih =>
    obtain ⟨k1, v1⟩ := hd
    by_cases hk : k1 = k
    · simp [keysA, hk]
    · simp only [lookupA, hk, if_false] at h
      simp only [keysA, List.map_cons, List.mem_cons]
      exact Or.inr (ih h)

theorem lookupA_mem {K α : Type} [DecidableEq K] {m : Assoc K α} {k : K} {v : α}
    (h : lookupA m k = some v) : (k, v) ∈ m := by
  induction m with
  | nil => simp [lookupA] at h
  | cons hd tl ih =>
    obtain ⟨k1, v1⟩ := hd
    by_cases hk : k1 = k
    · simp only [lookupA, hk, if_true, Option.some.injEq] at h
      subst hk
      subst h
      exact List.mem_cons_self _ _
    · simp only [lookupA, hk, if_false] at h
      exact List.mem_cons_of_mem _ (ih h)

theorem mem_setA {K α : Type} [DecidableEq K] {m : Assoc K α} {k : K} {v : α} {kv : K × α}
    (h : kv ∈ setA m k v) : kv = (k, v) ∨ kv ∈ m := by
  induction m with
  | nil => simpa [setA] using h
  | cons hd tl ih =>
    obtain ⟨k1, v1⟩ := hd
    by_cases hk : k1 = k
    · simp only [setA, hk, if_true] at h
      rcases List.mem_cons.mp h with h | h
      · subst hk
        exact Or.inl h
      · exact Or.inr (List.mem_cons_of_mem _ h)
    · simp only [setA, hk, if_false] at h
      rcases List.mem_cons.mp h with h | h
      · exact Or.inr (by simp [h])
      · rcases ih h with h1 | h1
        · exact Or.inl h1
        · exact Or.inr (List.mem_cons_of_mem _ h1)

theorem keysA_setA_of_mem {K α : Type} [DecidableEq K] {m : Assoc K α} {k : K} (v : α)
    (h : k ∈ keysA m) : keysA (setA m k v) = keysA m := by
  induction m with
  | nil => simp [keysA] at h
  | cons hd tl ih =>
    obtain ⟨k1, v1⟩ := hd
    by_cases hk : k1 = k
    · simp [setA, hk, keysA]
    · simp only [keysA, List.map_cons, List.mem_cons] at h
      rcases h with h | h
      · exact absurd h.symm hk
      · simp only [setA, hk, if_false, keysA, List.map_cons, List.cons.injEq, true_and]
        exact ih h

theorem keysA_setA_of_not_mem {K α : Type} [DecidableEq K] {m : Assoc K α} {k : K} (v : α)
    (h : k ∉ keysA m) : keysA (setA m k v) = keysA m ++ [k] := by
  induction m with
  | nil => simp [setA, keysA]
  | cons hd tl ih =>
    obtain ⟨k1, v1⟩ := hd
    simp only [keysA, List.map_cons, List.mem_cons] at h
    push_neg at h
    have hk : k1 ≠ k := fun hq => h.1 hq.symm
    simp only [setA, hk, if_false, keysA, List.map_cons, List.cons_append, List.cons.injEq, true_and]
    exact ih h.2

theorem mem_keysA_setA {K α : Type} [DecidableEq K] (m : Assoc K α) (k k1 : K) (v : α) :
    k1 ∈ keysA (setA m k v) ↔ k1 ∈ keysA m ∨ k1 = k := by
  by_cases h : k ∈ keysA m
  · rw [keysA_setA_of_mem v h]
    constructor
    · exact Or.inl
    · rintro (h1 | rfl) <;> [exact h1; exact h]
  · rw [keysA_setA_of_not_mem v h]
    simp

/-! Helper lemmas about the sorting functions. -/

theorem insertLe_perm {α : Type} (le : α → α → Bool) (a : α) (l : List α) :
    List.Perm (insertLe le a l) (a :: l) := by
  induction l with
  | nil => simp [insertLe]
  | cons b bs ih =>
    by_cases h : le a b
    · simp [insertLe, h]
    · simp only [insertLe, h, Bool.false_eq_true, if_false]
      exact List.Perm.trans (ih.cons b) (List.Perm.swap a b bs)

theorem sortByLe_perm {α : Type} (le : α → α → Bool) (l : List α) :
    List.Perm (sortByLe le l) l := by
  induction l with
  | nil => simp [sortByLe]
  | cons a l ih =>
    have h1 : sortByLe le (a :: l) = insertLe le a (sortByLe le l) := rfl
    rw [h1]
    exact List.Perm.trans (insertLe_perm le a _) (ih.cons a)

theorem mem_sortByLe {α : Type} (le : α → α → Bool) (l : List α) (x : α) :
    x ∈ sortByLe le l ↔ x ∈ l :=
  (sortByLe_perm le l).mem_iff

theorem map_insertLe {α β : Type} (f : α → β) (le : α → α → Bool) (le2 : β → β → Bool)
    (hcomm : ∀ x y, le x y = le2 (f x) (f y)) (a : α) (l : List α) :
    (insertLe le a l).map f = insertLe le2 (f a) (l.map f) := by
  induction l with
  | nil => simp [insertLe]
  | cons b bs ih =>
    by_cases h : le a b
    · have h2 : le2 (f a) (f b) = true := by rw [← hcomm]; exact h
      simp [insertLe, h, h2]
    · have h2 : ¬ le2 (f a) (f b) = true := by rw [← hcomm]; simpa using h
      simp [insertLe, h, h2, ih]

theorem map_sortByLe {α β : Type} (f : α → β) (le : α → α → Bool) (le2 : β → β → Bool)
    (hcomm : ∀ x y, le x y = le2 (f x) (f y)) (l : List α) :
    (sortByLe le l).map f = sortByLe le2 (l.map f) := by
  induction l with
  | nil => simp [sortByLe]
  | cons a l ih =>
    show (insertLe le a (sortByLe le l)).map f = insertLe le2 (f a) ((l.map f).foldr (insertLe le2) [])
    rw [map_insertLe f le le2 hcomm, ih]
    rfl

theorem cpLe_total (a b : List Char) : cpLe a b = true ∨ cpLe b a = true := by
  induction a generalizing b with
  | nil => left; simp [cpLe]
  | cons x xs ih =>
    cases b with
    | nil => right; simp [cpLe]
    | cons y ys =>
      rcases Nat.lt_trichotomy x.toNat y.toNat with h | h | h
      · left; simp [cpLe, h]
      · have h1 : ¬ x.toNat < y.toNat := by omega
        have h2 : ¬ y.toNat < x.toNat := by omega
        rcases ih ys with h3 | h3
        · left; simp [cpLe, h1, h2, h3]
        · right; simp [cpLe, h1, h2, h3]
      · right; simp [cpLe, h]

theorem strLe_total (a b : String) : strLe a b = true ∨ strLe b a = true :=
  cpLe_total a.toList b.toList

/-- Sortedness under a boolean order: every adjacent pair is ordered. -/
def SortedLe {α : Type} (le : α → α → Bool) (l : List α) : Prop :=
  l.Chain' (fun a b => le a b = true)

theorem sortedLe_insertLe {α : Type} (le : α → α → Bool)
    (htot : ∀ x y, le x y = true ∨ le y x = true) (a : α) (l : List α)
    (h : SortedLe le l) : SortedLe le (insertLe le a l) := by
  induction l with
  | nil => simp [insertLe, SortedLe]
  | cons b bs ih =>
    by_cases hab : le a b
    · simp only [insertLe, hab, if_true]
      exact List.Chain'.cons hab h
    · have hba : le b a = true := by
        rcases htot a b with h1 | h1
        · exact absurd h1 hab
        · exact h1
      simp only [insertLe, hab, Bool.false_eq_true, if_false]
      have htl : SortedLe le bs := List.Chain'.tail h
      have hins := ih htl
      rw [SortedLe, List.chain'_cons']
      refine ⟨?_, hins⟩
      intro y hy
      cases bs with
      | nil =>
        simp [insertLe] at hy
        rw [← hy]
        exact hba
      | cons d ds =>
        have hbd : le b d = true := (List.chain'_cons.mp h).1
        by_cases had : le a d
        · simp only [insertLe, had, if_true, List.head?_cons, Option.mem_def,
            Option.some.injEq] at hy
          rw [← hy]
          exact hba
        · simp only [insertLe, had, Bool.false_eq_true, if_false, List.head?_cons,
            Option.mem_def, Option.some.injEq] at hy
          rw [← hy]
          exact hbd

theorem sortedLe_sortByLe {α : Type} (le : α → α → Bool)
    (htot : ∀ x y, le x y = true ∨ le y x = true) (l : List α) :
    SortedLe le (sortByLe le l) := by
  induction l with
  | nil => simp [sortByLe, SortedLe]
  | cons a l ih => exact sortedLe_insertLe le htot a _ ih

theorem sortByLe_eq_self_of_sorted {α : Type} (le : α → α → Bool) (l : List α)
    (h : SortedLe le l) : sortByLe le l = l := by
  induction l with
  | nil => rfl
  | cons a l ih =>
    have htl : sortByLe le l = l := ih h.tail
    show insertLe le a (sortByLe le l) = a :: l
    rw [htl]
    cases l with
    | nil => rfl
    | cons b bs =>
      have hab : le a b = true := (List.chain'_cons.mp h).1
      simp [insertLe, hab]

theorem sortByLe_idem {α : Type} (le : α → α → Bool)
    (htot : ∀ x y, le x y = true ∨ le y x = true) (l : List α) :
    sortByLe le (sortByLe le l) = sortByLe le l :=
  sortByLe_eq_self_of_sorted le _ (sortedLe_sortByLe le htot l)

/-! Helper lemmas about dedupFirst. -/

theorem mem_dedupFirstAux (seen l : List String) (x : String) :
    x ∈ dedupFirstAux seen l ↔ x ∈ l ∧ x ∉ seen := by
  induction l generalizing seen with
  | nil => simp [dedupFirstAux]
  | cons a as ih =>
    by_cases h : a ∈ seen
    · simp only [dedupFirstAux, h, if_true]
      rw [ih]
      constructor
      · rintro ⟨h1, h2⟩
        exact ⟨List.mem_cons_of_mem _ h1, h2⟩
      · rintro ⟨h1, h2⟩
        rcases List.mem_cons.mp h1 with rfl | h1
        · exact absurd h h2
        · exact ⟨h1, h2⟩
    · simp only [dedupFirstAux, h, if_false]
      rw [List.mem_cons, ih]
      constructor
      · rintro (rfl | ⟨h1, h2⟩)
        · exact ⟨List.mem_cons_self _ _, h⟩
        · simp at h2
          exact ⟨List.mem_cons_of_mem _ h1, h2.2⟩
      · rintro ⟨h1, h2⟩
        rcases List.mem_cons.mp h1 with rfl | h1
        · exact Or.inl rfl
        · by_cases hx : x = a
          · exact Or.inl hx
          · exact Or.inr ⟨h1, by simp [hx, h2]⟩

theorem mem_dedupFirst (l : List String) (x : String) : x ∈ dedupFirst l ↔ x ∈ l := by
  rw [dedupFirst, mem_dedupFirstAux]
  simp

theorem nodup_dedupFirstAux (seen l : List String) : (dedupFirstAux seen l).Nodup := by
  induction l generalizing seen with
  | nil => simp [dedupFirstAux]
  | cons a as ih =>
    by_cases h : a ∈ seen
    · simp only [dedupFirstAux, h, if_true]
      exact ih seen
    · simp only [dedupFirstAux, h, if_false]
      refine List.Nodup.cons ?_ (ih (a :: seen))
      intro hmem
      rcases (mem_dedupFirstAux _ _ _).mp hmem with ⟨-, h2⟩
      exact h2 (List.mem_cons_self _ _)

theorem nodup_dedupFirst (l : List String) : (dedupFirst l).Nodup :=
  nodup_dedupFirstAux [] l

/-! Helper lemmas about the invoice accumulator. -/

namespace Invoicing

/-- Breakdown list of one property and line category in an invoice map, empty when absent. -/
def breakdownAt (s : Assoc String PropertyInvoice) (k : String) (line : Line) :
    List Contribution :=
  ((lookupA s k).map (fun inv => (lookupA inv.breakdown line).getD [])).getD []

theorem setLine_breakdown (inv : PropertyInvoice) (line : Line) (q : ℚ) :
    (setLine inv line q).breakdown = inv.breakdown := by
  cases line <;> rfl

theorem setLine_propertyKey (inv : PropertyInvoice) (line : Line) (q : ℚ) :
    (setLine inv line q).propertyKey = inv.propertyKey := by
  cases line <;> rfl

theorem setLine_propertyLabel (inv : PropertyInvoice) (line : Line) (q : ℚ) :
    (setLine inv line q).propertyLabel = inv.propertyLabel := by
  cases line <;> rfl

theorem bumpInv_breakdown (inv : PropertyInvoice) (line : Line) (amount : ℚ)
    (employee : String) (ap ba : Option ℚ) :
    (bumpInv inv line amount employee ap ba).breakdown =
      setA inv.breakdown line
        ((lookupA inv.breakdown line).getD [] ++ [⟨employee, amount, ap, ba⟩]) := by
  simp only [bumpInv]
  split_ifs <;> simp [setLine_breakdown]

theorem bumpInv_propertyKey (inv : PropertyInvoice) (line : Line) (amount : ℚ)
    (employee : String) (ap ba : Option ℚ) :
    (bumpInv inv line amount employee ap ba).propertyKey = inv.propertyKey := by
  simp only [bumpInv]
  split_ifs <;> simp [setLine_propertyKey]

theorem bumpInv_propertyLabel (inv : PropertyInvoice) (line : Line) (amount : ℚ)
    (employee : String) (ap ba : Option ℚ) :
    (bumpInv inv line amount employee ap ba).propertyLabel = inv.propertyLabel := by
  simp only [bumpInv]
  split_ifs <;> simp [setLine_propertyLabel]

theorem keysA_add (s : Assoc String PropertyInvoice) (k : String) (line : Line) (amount : ℚ)
    (employee : String) (ap ba : Option ℚ) :
    keysA (add s k line amount employee ap ba) = keysA s := by
  rw [add]
  split_ifs
  · rfl
  · rcases hdm : lookupA s k with _ | inv
    · simp
    · simp only
      exact keysA_setA_of_mem _ (mem_keysA_of_lookupA hdm)

theorem mem_add {s : Assoc String PropertyInvoice} {k : String} {line : Line} {amount : ℚ}
    {employee : String} {ap ba : Option ℚ} {kv : String × PropertyInvoice}
    (h : kv ∈ add s k line amount employee ap ba) :
    kv ∈ s ∨ ∃ inv, lookupA s k = some inv ∧ kv = (k, bumpInv inv line amount employee ap ba) := by
  rw [add] at h
  split_ifs at h
  · exact Or.inl h
  · rcases hdm : lookupA s k with _ | inv
    · simp only [hdm] at h
      exact Or.inl h
    · simp only [hdm] at h
      rcases mem_setA h with h1 | h1
      · exact Or.inr ⟨inv, rfl, h1⟩
      · exact Or.inl h1

theorem addEntry_pres (Φ : Assoc String PropertyInvoice → Prop)
    (hadd : ∀ s k line amount employee ap ba, Φ s → Φ (add s k line amount employee ap ba))
    (emp : PayrollEmployee) (isRec : Bool) (s : Assoc String PropertyInvoice)
    (kv : String × JNum) (h : Φ s) : Φ (addEntry emp isRec s kv) := by
  simp only [addEntry]
  split_ifs <;>
    first
      | exact h
      | exact hadd _ _ _ _ _ _ _
          (hadd _ _ _ _ _ _ _
            (hadd _ _ _ _ _ _ _ (hadd _ _ _ _ _ _ _ (hadd _ _ _ _ _ _ _ h))))

theorem foldl_addEntry_pres (Φ : Assoc String PropertyInvoice → Prop)
    (hadd : ∀ s k line amount employee ap ba, Φ s → Φ (add s k line amount employee ap ba))
    (emp : PayrollEmployee) (isRec : Bool) :
    ∀ (l : List (String × JNum)) (s : Assoc String PropertyInvoice), Φ s →
      Φ (l.foldl (addEntry emp isRec) s) := by
  intro l
  induction l with
  | nil => intro s h; exact h
  | cons kv l ih =>
    intro s h
    rw [List.foldl_cons]
    exact ih _ (addEntry_pres Φ hadd emp isRec s kv h)

theorem processEmployee_pres (Φ : Assoc String PropertyInvoice → Prop)
    (hadd : ∀ s k line amount employee ap ba, Φ s → Φ (add s k line amount employee ap ba))
    (byFull : Assoc String AllocationEmployee)
    (byLast : Assoc String (List AllocationEmployee)) (s : Assoc String PropertyInvoice)
    (emp : PayrollEmployee) (h : Φ s) : Φ (processEmployee byFull byLast s emp) := by
  rw [processEmployee]
  rcases findAlloc byFull byLast emp.name with _ | a
  · exact h
  · exact foldl_addEntry_pres Φ hadd emp a.recoverable a.allocations s h

theorem foldl_processEmployee_pres (Φ : Assoc String PropertyInvoice → Prop)
    (hadd : ∀ s k line amount employee ap ba, Φ s → Φ (add s k line amount employee ap ba))
    (byFull : Assoc String AllocationEmployee)
    (byLast : Assoc String (List AllocationEmployee)) :
    ∀ (es : List PayrollEmployee) (s : Assoc String PropertyInvoice), Φ s →
      Φ (es.foldl (processEmployee byFull byLast) s) := by
  intro es
  induction es with
  | nil => intro s h; exact h
  | cons emp es ih =>
    intro s h
    rw [List.foldl_cons]
    exact ih _ (processEmployee_pres Φ hadd byFull byLast s emp h)

theorem keysA_foldl_processEmployee (byFull : Assoc String AllocationEmployee)
    (byLast : Assoc String (List AllocationEmployee)) (es : List PayrollEmployee)
    (s : Assoc String PropertyInvoice) :
    keysA (es.foldl (processEmployee byFull byLast) s) = keysA s :=
  foldl_processEmployee_pres (fun m => keysA m = keysA s)
    (fun s2 k line amount employee ap ba h => by
      show keysA (add s2 k line amount employee ap ba) = keysA s
      rw [keysA_add]
      exact h) byFull byLast es s rfl

theorem keyInv_foldl_processEmployee (byFull : Assoc String AllocationEmployee)
    (byLast : Assoc String (List AllocationEmployee)) (es : List PayrollEmployee)
    (s : Assoc String PropertyInvoice) (h : ∀ kv ∈ s, kv.2.propertyKey = kv.1) :
    ∀ kv ∈ es.foldl (processEmployee byFull byLast) s, kv.2.propertyKey = kv.1 := by
  refine foldl_processEmployee_pres (fun m => ∀ kv ∈ m, kv.2.propertyKey = kv.1)
    ?_ byFull byLast es s h
  intro s2 k line amount employee ap ba h2 kv hkv
  rcases mem_add hkv with h3 | ⟨inv, hl, rfl⟩
  · exact h2 kv h3
  · simp only [bumpInv_propertyKey]
    exact h2 (k, inv) (lookupA_mem hl)

theorem labelInv_foldl_processEmployee (byFull : Assoc String AllocationEmployee)
    (byLast : Assoc String (List AllocationEmployee)) (es : List PayrollEmployee)
    (s : Assoc String PropertyInvoice)
    (h : ∀ kv ∈ s, kv.2.propertyLabel = kv.2.propertyKey) :
    ∀ kv ∈ es.foldl (processEmployee byFull byLast) s,
      kv.2.propertyLabel = kv.2.propertyKey := by
  refine foldl_processEmployee_pres (fun m => ∀ kv ∈ m, kv.2.propertyLabel = kv.2.propertyKey)
    ?_ byFull byLast es s h
  intro s2 k line amount employee ap ba h2 kv hkv
  rcases mem_add hkv with h3 | ⟨inv, hl, rfl⟩
  · exact h2 kv h3
  · simp only [bumpInv_propertyLabel, bumpInv_propertyKey]
    exact h2 (k, inv) (lookupA_mem hl)

theorem mem_seedInvoices_aux :
    ∀ (props : List Property) (m : Assoc String PropertyInvoice) (kv : String × PropertyInvoice),
      kv ∈ props.foldl (fun m p => setA m p.key (seedInvoice p)) m →
      kv ∈ m ∨ ∃ p ∈ props, kv = (p.key, seedInvoice p) := by
  intro props
  induction props with
  | nil => intro m kv h; exact Or.inl h
  | cons p props ih =>
    intro m kv h
    rw [List.foldl_cons] at h
    rcases ih _ kv h with h1 | ⟨q, hq, h2⟩
    · rcases mem_setA h1 with h2 | h2
      · exact Or.inr ⟨p, List.mem_cons_self _ _, h2⟩
      · exact Or.inl h2
    · exact Or.inr ⟨q, List.mem_cons_of_mem _ hq, h2⟩

theorem mem_seedInvoices {props : List Property} {kv : String × PropertyInvoice}
    (h : kv ∈ seedInvoices props) : ∃ p ∈ props, kv = (p.key, seedInvoice p) := by
  rcases mem_seedInvoices_aux props [] kv h with h1 | h1
  · simp at h1
  · exact h1

theorem mem_keysA_seedInvoices_aux :
    ∀ (props : List Property) (m : Assoc String PropertyInvoice) (k : String),
      k ∈ keysA (props.foldl (fun m p => setA m p.key (seedInvoice p)) m) ↔
        k ∈ keysA m ∨ k ∈ props.map Property.key := by
  intro props
  induction props with
  | nil => intro m k; simp
  | cons p props ih =>
    intro m k
    rw [List.foldl_cons, ih, mem_keysA_setA]
    simp only [List.map_cons, List.mem_cons]
    tauto

theorem mem_keysA_seedInvoices (props : List Property) (k : String) :
    k ∈ keysA (seedInvoices props) ↔ k ∈ props.map Property.key := by
  rw [seedInvoices, mem_keysA_seedInvoices_aux]
  simp [keysA]

theorem keysA_setA_nodup {K α : Type} [DecidableEq K] {m : Assoc K α} {k : K} {v : α}
    (h : (keysA m).Nodup) : (keysA (setA m k v)).Nodup := by
  by_cases hm : k ∈ keysA m
  · rw [keysA_setA_of_mem _ hm]
    exact h
  · rw [keysA_setA_of_not_mem _ hm]
    simp [List.nodup_append, h, hm]

theorem keysA_seedInvoices_nodup_aux :
    ∀ (props : List Property) (m : Assoc String PropertyInvoice), (keysA m).Nodup →
      (keysA (props.foldl (fun m p => setA m p.key (seedInvoice p)) m)).Nodup := by
  intro props
  induction props with
  | nil => intro m h; exact h
  | cons p props ih =>
    intro m h
    rw [List.foldl_cons]
    exact ih _ (keysA_setA_nodup h)

theorem keysA_seedInvoices_nodup (props : List Property) :
    (keysA (seedInvoices props)).Nodup :=
  keysA_seedInvoices_nodup_aux props [] (by simp [keysA])

theorem keysA_seedInvoices_of_nodup_aux :
    ∀ (props : List Property) (m : Assoc String PropertyInvoice),
      (props.map Property.key).Nodup → (∀ p ∈ props, p.key ∉ keysA m) →
      keysA (props.foldl (fun m p => setA m p.key (seedInvoice p)) m) =
        keysA m ++ props.map Property.key := by
  intro props
  induction props with
  | nil => intro m _ _; simp
  | cons p props ih =>
    intro m hnd hdis
    rw [List.foldl_cons]
    have hpm : p.key ∉ keysA m := hdis p (List.mem_cons_self _ _)
    have hset : keysA (setA m p.key (seedInvoice p)) = keysA m ++ [p.key] :=
      keysA_setA_of_not_mem _ hpm
    have hnd2 : (props.map Property.key).Nodup := (List.nodup_cons.mp (by simpa using hnd)).2
    have hhead : p.key ∉ props.map Property.key := (List.nodup_cons.mp (by simpa using hnd)).1
    have hdis2 : ∀ q ∈ props, q.key ∉ keysA (setA m p.key (seedInvoice p)) := by
      intro q hq
      rw [hset]
      simp only [List.mem_append, List.mem_singleton]
      rintro (h1 | h1)
      · exact hdis q (List.mem_cons_of_mem _ hq) h1
      · exact hhead (h1 ▸ List.mem_map_of_mem Property.key hq)
    rw [ih _ hnd2 hdis2, hset]
    simp

theorem keysA_seedInvoices_of_nodup (props : List Property)
    (h : (props.map Property.key).Nodup) :
    keysA (seedInvoices props) = props.map Property.key := by
  rw [seedInvoices, keysA_seedInvoices_of_nodup_aux props [] h (by simp [keysA])]
  simp [keysA]

theorem round2_zero : round2 0 = 0 := by
  norm_num [round2, jsRound]

theorem roundInvoice_seedInvoice (p : Property) :
    roundInvoice (seedInvoice p) = seedInvoice p := by
  simp [roundInvoice, seedInvoice, round2_zero]

theorem roundInvoice_propertyKey (inv : PropertyInvoice) :
    (roundInvoice inv).propertyKey = inv.propertyKey := rfl

theorem roundInvoice_propertyLabel (inv : PropertyInvoice) :
    (roundInvoice inv).propertyLabel = inv.propertyLabel := rfl

/-- Keys of the output of buildInvoices: the seeded keys, sorted in code-point order. -/
theorem map_key_buildInvoices (payroll : PayrollParseResult) (alloc : AllocationTable) :
    (buildInvoices payroll alloc).map (fun i => i.propertyKey) =
      sortByLe strLe (keysA (seedInvoices
        (if alloc.properties = [] then deriveProps alloc.employees
         else alloc.properties))) := by
  simp only [buildInvoices]
  rw [map_sortByLe (fun i : PropertyInvoice => i.propertyKey)
    (fun a b : PropertyInvoice => strLe a.propertyKey b.propertyKey) strLe (fun x y => rfl)]
  congr 1
  rw [List.map_map]
  have hseedinv : ∀ kv ∈ seedInvoices
      (if alloc.properties = [] then deriveProps alloc.employees else alloc.properties),
      kv.2.propertyKey = kv.1 := by
    intro kv hkv
    rcases mem_seedInvoices hkv with ⟨p, _, rfl⟩
    rfl
  have hinv := keyInv_foldl_processEmployee (buildByFull alloc.employees)
    (buildByLast alloc.employees) payroll.employees _ hseedinv
  have hkeys := keysA_foldl_processEmployee (buildByFull alloc.employees)
    (buildByLast alloc.employees) payroll.employees
    (seedInvoices (if alloc.properties = [] then deriveProps alloc.employees
      else alloc.properties))
  rw [← hkeys]
  rw [keysA]
  refine List.map_congr_left ?_
  intro kv hkv
  show (roundInvoice kv.2).propertyKey = kv.1
  rw [roundInvoice_propertyKey]
  exact hinv kv hkv

theorem foldl_processEmployee_skip (byFull : Assoc String AllocationEmployee)
    (byLast : Assoc String (List AllocationEmployee)) (emp : PayrollEmployee)
    (hnone : findAlloc byFull byLast emp.name = none)
    (init : Assoc String PropertyInvoice) (pre post : List PayrollEmployee) :
    List.foldl (processEmployee byFull byLast) init (pre ++ emp :: post) =
      List.foldl (processEmployee byFull byLast) init (pre ++ post) := by
  rw [List.foldl_append, List.foldl_append, List.foldl_cons]
  congr 1
  simp [processEmployee, hnone]

end Invoicing

/-! Helper lemmas about the expansion sums. -/

namespace ParseAllocation

theorem posShareSum_nil : posShareSum [] = 0 := rfl

theorem posShareSum_cons (kv : String × JNum) (d : Assoc String JNum) :
    posShareSum (kv :: d) =
      (if normalizePct kv.2 ≤ 0 then 0 else normalizePct kv.2) + posShareSum d := by
  simp [posShareSum]

theorem posShareSum_nonneg (d : Assoc String JNum) : 0 ≤ posShareSum d := by
  induction d with
  | nil => simp [posShareSum]
  | cons kv d ih =>
    rw [posShareSum_cons]
    by_cases h : normalizePct kv.2 ≤ 0
    · simpa [h] using ih
    · simp only [h, if_false]
      have : 0 ≤ normalizePct kv.2 := le_of_not_le h
      linarith

theorem recSum_recAdd (m : Assoc String ℚ) (k : String) (x : ℚ) :
    recSum (recAdd m k x) = recSum m + x := by
  induction m with
  | nil => simp [recAdd, setA, lookupA, recSum]
  | cons hd tl ih =>
    obtain ⟨k1, v1⟩ := hd
    by_cases hk : k1 = k
    · simp only [recAdd, setA, lookupA, hk, if_true, Option.getD_some, recSum, List.map_cons,
        List.sum_cons] at ih ⊢
      ring
    · simp only [recAdd, setA, lookupA, hk, if_false, recSum, List.map_cons, List.sum_cons]
        at ih ⊢
      rw [ih]
      ring

theorem recSum_applyDist (d : Assoc String JNum) :
    ∀ (w : Assoc String ℚ) (pct : ℚ),
      recSum (applyDist w d pct) = recSum w + pct * posShareSum d := by
  induction d with
  | nil => intro w pct; simp [applyDist, posShareSum]
  | cons kv d ih =>
    intro w pct
    rw [posShareSum_cons]
    by_cases h : normalizePct kv.2 ≤ 0
    · have h1 : applyDist w (kv :: d) pct = applyDist w d pct := by
        simp [applyDist, h]
      rw [h1, ih]
      simp [h]
    · have h1 : applyDist w (kv :: d) pct =
          applyDist (recAdd w kv.1 (pct * normalizePct kv.2)) d pct := by
        simp [applyDist, h]
      rw [h1, ih, recSum_recAdd]
      simp only [h, if_false]
      ring

theorem recSum_marketingStep_le (tb : Tables) (pct : ℚ) (hpct : 0 ≤ pct)
    (hsc : posShareSum tb.scNR ≤ 1) (hni : posShareSum tb.niNR ≤ 1)
    (hjv : posShareSum tb.jvPRS ≤ 1) (w : Assoc String ℚ) (kv : String × JNum) :
    recSum (marketingStep tb pct w kv) ≤
      recSum w + pct * (if normalizePct kv.2 ≤ 0 then 0 else normalizePct kv.2) := by
  have hterm : 0 ≤ (if normalizePct kv.2 ≤ 0 then 0 else normalizePct kv.2) := by
    split_ifs with h
    · exact le_refl 0
    · exact (not_le.mp h).le
  by_cases hsub : pct * normalizePct kv.2 ≤ 0
  · simp only [marketingStep, hsub, if_true]
    nlinarith
  · have hsub2 : 0 < pct * normalizePct kv.2 := lt_of_not_le hsub
    have hsh : 0 < normalizePct kv.2 := by
      by_contra hc
      exact hsub (mul_nonpos_iff.mpr (Or.inl ⟨hpct, not_lt.mp hc⟩))
    have hterm2 : (if normalizePct kv.2 ≤ 0 then 0 else normalizePct kv.2) =
        normalizePct kv.2 := if_neg (not_le.mpr hsh)
    rw [hterm2]
    simp only [marketingStep]
    rw [if_neg hsub]
    by_cases hk1 : kv.1 = "SC"
    · rw [hk1, if_pos rfl, recSum_applyDist]
      nlinarith
    · rw [if_neg hk1]
      by_cases hk2 : kv.1 = "NI LLC"
      · rw [hk2, if_pos rfl, recSum_applyDist]
        nlinarith
      · rw [if_neg hk2]
        by_cases hk3 : kv.1 = "JV III"
        · rw [hk3, if_pos rfl, recSum_applyDist]
          nlinarith
        · rw [if_neg hk3]
          nlinarith

theorem recSum_marketingFold_le (tb : Tables) (pct : ℚ) (hpct : 0 ≤ pct)
    (hsc : posShareSum tb.scNR ≤ 1) (hni : posShareSum tb.niNR ≤ 1)
    (hjv : posShareSum tb.jvPRS ≤ 1) :
    ∀ (gs : Assoc String JNum) (w : Assoc String ℚ),
      recSum (gs.foldl (marketingStep tb pct) w) ≤ recSum w + pct * posShareSum gs := by
  intro gs
  induction gs with
  | nil => intro w; simp [posShareSum]
  | cons kv gs ih =>
    intro w
    rw [List.foldl_cons, posShareSum_cons]
    have h1 := ih (marketingStep tb pct w kv)
    have h2 := recSum_marketingStep_le tb pct hpct hsc hni hjv w kv
    nlinarith

theorem recSum_stepEntry_le (tb : Tables) (rec : Bool)
    (h1 : posShareSum tb.scREC ≤ 1) (h2 : posShareSum tb.scNR ≤ 1)
    (h3 : posShareSum tb.niREC ≤ 1) (h4 : posShareSum tb.niNR ≤ 1)
    (h5 : posShareSum tb.jvPRS ≤ 1) (h6 : posShareSum tb.mktGroups ≤ 1)
    (w : Assoc String ℚ) (kv : String × JNum) (hkv : 0 ≤ normalizePct kv.2) :
    recSum (stepEntry tb rec w kv) ≤ recSum w + normalizePct kv.2 := by
  by_cases hp : normalizePct kv.2 ≤ 0
  · simp only [stepEntry, hp, if_true]
    linarith
  · have hp2 : 0 < normalizePct kv.2 := lt_of_not_le hp
    cases hdm : lookupA directMap (jsTrim kv.1) with
    | some kl =>
      simp only [stepEntry, hp, if_false, hdm]
      rw [recSum_recAdd]
    | none =>
      simp only [stepEntry, hp, if_false, hdm]
      by_cases hg1 : normGroup (jsTrim kv.1) = "SC"
      · rw [if_pos hg1, recSum_applyDist]
        have hd : posShareSum (if rec then tb.scREC else tb.scNR) ≤ 1 := by
          cases rec
          · simpa using h2
          · simpa using h1
        nlinarith
      · rw [if_neg hg1]
        by_cases hg2 : normGroup (jsTrim kv.1) = "NI LLC"
        · rw [if_pos hg2, recSum_applyDist]
          have hd : posShareSum (if rec then tb.niREC else tb.niNR) ≤ 1 := by
            cases rec
            · simpa using h4
            · simpa using h3
          nlinarith
        · rw [if_neg hg2]
          by_cases hg3 : normGroup (jsTrim kv.1) = "JV III"
          · rw [if_pos hg3, recSum_applyDist]
            nlinarith
          · rw [if_neg hg3]
            by_cases hg4 : normGroup (jsTrim kv.1) = "MARKETING"
            · rw [if_pos hg4]
              have hfold := recSum_marketingFold_le tb (normalizePct kv.2) hp2.le h2 h4 h5
                tb.mktGroups w
              simp only [marketingApply]
              nlinarith
            · rw [if_neg hg4]
              linarith

theorem recSum_expandFold_le (tb : Tables) (rec : Bool)
    (h1 : posShareSum tb.scREC ≤ 1) (h2 : posShareSum tb.scNR ≤ 1)
    (h3 : posShareSum tb.niREC ≤ 1) (h4 : posShareSum tb.niNR ≤ 1)
    (h5 : posShareSum tb.jvPRS ≤ 1) (h6 : posShareSum tb.mktGroups ≤ 1) :
    ∀ (l : List (String × JNum)), (∀ kv ∈ l, 0 ≤ normalizePct kv.2) →
      ∀ w : Assoc String ℚ,
        recSum (l.foldl (stepEntry tb rec) w) ≤
          recSum w + (l.map (fun kv => normalizePct kv.2)).sum := by
  intro l
  induction l with
  | nil => intro _ w; simp
  | cons kv l ih =>
    intro hl w
    rw [List.foldl_cons, List.map_cons, List.sum_cons]
    have hkv : 0 ≤ normalizePct kv.2 := hl kv (List.mem_cons_self _ _)
    have hstep := recSum_stepEntry_le tb rec h1 h2 h3 h4 h5 h6 w kv hkv
    have hrest := ih (fun x hx => hl x (List.mem_cons_of_mem _ hx)) (stepEntry tb rec w kv)
    linarith

end ParseAllocation

/-! Concrete inputs used by the evaluation theorems. -/

/-- Payroll with a single employee ann earning a salary of 100. -/
def exPayrollAnn : Invoicing.PayrollParseResult := ⟨[⟨"ann", 100, 0, 0, 0⟩]⟩

/-- Allocation table with one property P and one recoverable employee ann fully allocated to P. -/
def exAllocAnn : Invoicing.AllocationTable :=
  ⟨[⟨"P", "P", ""⟩], [⟨"ann", true, [("P", .fin 1)]⟩]⟩

/-- Tables whose SC recoverable split holds raw percents 60 and 60, norm-summing to 1.2. -/
def exTablesWide : ParseAllocation.Tables := ⟨[("A", .fin 60), ("B", .fin 60)], [], [], [], [], []⟩

/-- Employee allocating half of their pay to the SC group. -/
def exEmpHalfSC : ParseAllocation.EmployeeTop := ⟨"x", true, [("SC", .fin (mkRat 1 2))]⟩

/-- Tables with a marketing cascade of 30 and 30 across SC and NI LLC, each resolving fully to one property. -/
def exTablesMkt : ParseAllocation.Tables :=
  ⟨[], [("A", .fin 100)], [], [("B", .fin 100)], [], [("SC", .fin 30), ("NI LLC", .fin 30)]⟩

/-- Employee allocating everything to marketing. -/
def exEmpMkt : ParseAllocation.EmployeeTop := ⟨"x", false, [("Marketing", .fin 1)]⟩

/-- Allocation employee ann smith with one non-zero allocation entry. -/
def exAnnSmith : Invoicing.AllocationEmployee := ⟨"ann smith", true, [("P", .fin 1)]⟩

/-- Allocation employee bob smith with two non-zero allocation entries. -/
def exBobSmith : Invoicing.AllocationEmployee :=
  ⟨"bob smith", false, [("P", .fin 1), ("Q", .fin 1)]⟩

/-- Number of non-zero entries of an allocation map. -/
def nonZeroAllocCount (a : Invoicing.AllocationEmployee) : Nat :=
  (a.allocations.filter (fun kv => kv.2 ≠ JNum.fin 0)).length

/-- Allocation table listing only property P while its sole employee allocates fully to the unlisted key Q. -/
def exAllocStray : Invoicing.AllocationTable :=
  ⟨[⟨"P", "P", ""⟩], [⟨"bob", false, [("Q", .fin 1)]⟩]⟩

/-- Payroll with a single employee bob earning a salary of 100. -/
def exPayrollBob : Invoicing.PayrollParseResult := ⟨[⟨"bob", 100, 0, 0, 0⟩]⟩

/-! Claim theorems. -/

/-- C1: on a payroll with one recoverable employee fully allocated to the single property P with salary 100, the engine emits salaryREC 100, every other category 0, but total 200: the total field is accumulated separately (once through every category add and once more through the explicit total add) and rounded independently, so it does not equal the sum of the six category fields rounded to two decimals, which is 100. -/
theorem c1_total_is_double_counted :
    ((Invoicing.buildInvoices exPayrollAnn exAllocAnn).map
      (fun i => (i.propertyKey, i.salaryREC, i.salaryNR, i.overtime, i.holREC, i.holNR,
        i.er401k, i.total))) = [("P", 100, 0, 0, 0, 0, 0, 200)] ∧
    Invoicing.round2 (100 + 0 + 0 + 0 + 0 + 0) = 100 := by
  constructor
  · norm_num [Invoicing.buildInvoices, Invoicing.deriveProps, Invoicing.seedInvoices,
      Invoicing.seedInvoice, Invoicing.buildByFull, Invoicing.buildByLast, Invoicing.findAlloc,
      Invoicing.processEmployee, Invoicing.addEntry, Invoicing.add, Invoicing.bumpInv,
      Invoicing.pickAllocPct,
      Invoicing.getLine, Invoicing.setLine, Invoicing.roundInvoice, Invoicing.round2,
      Invoicing.jsRound, normName, lastName, firstInitial, splitSp, lowerKeep, collapseSp,
      trimSp, lookupA, setA, keysA, sortByLe, insertLe, strLe, cpLe, exPayrollAnn,
      exAllocAnn] <;> simp only [reduceCtorEq, if_false] <;> norm_num [Invoicing.jsRound]
  · norm_num [Invoicing.round2, Invoicing.jsRound]

/-- C2 counterexample: the employee allocating half their pay to the SC group, whose recoverable split map scalar-normalizes to shares 0.6 and 0.6, receives raw expanded weights summing to 0.6 and a final normalized output summing to 1, both exceeding the 0.5 sum of the per-entry normalized percents, so the fan-out does expand beyond the employee's own allocated percent. -/
theorem c2_fanout_exceeds_allocation :
    recSum (ParseAllocation.expandRaw exTablesWide exEmpHalfSC) = 3/5 ∧
    recSum (ParseAllocation.expandEmployee exTablesWide exEmpHalfSC) = 1 ∧
    ParseAllocation.entryPctSum exEmpHalfSC = 1/2 ∧
    ¬ ((3/5 : ℚ) ≤ 1/2) ∧ ¬ ((1 : ℚ) ≤ 1/2) := by
  have htrim : jsTrim "SC" = "SC" := by decide
  have hdirect : lookupA ParseAllocation.directMap "SC" = none := by decide
  have hgroup : ParseAllocation.normGroup "SC" = "SC" := by decide
  refine ⟨?_, ?_, ?_, by norm_num, by norm_num⟩ <;>
    norm_num [ParseAllocation.expandRaw, ParseAllocation.expandEmployee,
      ParseAllocation.stepEntry, ParseAllocation.applyDist, ParseAllocation.marketingApply,
      ParseAllocation.marketingStep, ParseAllocation.normalizePct, ParseAllocation.recAdd,
      ParseAllocation.entryPctSum, normalizeWeights, recSum,
      lookupA, setA, keysA, htrim, hdirect, hgroup, exTablesWide,
      exEmpHalfSC, Rat.mkRat_eq_div] <;> simp <;> norm_num

/-- C3 counterexample: with a marketing cascade of raw percents 30 and 30 for SC and NI LLC, the code expansion of a full marketing allocation yields weights 0.3 and 0.3, while the reading of the spec that map-normalizes the cascade table to sum 1 yields 0.5 and 0.5, so the expansion does not iterate the map-normalized cascade table. -/
theorem c3_cascade_not_map_normalized :
    ParseAllocation.expandRaw exTablesMkt exEmpMkt = [("A", 3/10), ("B", 3/10)] ∧
    ParseAllocation.marketingSpecApply [("SC", 30), ("NI LLC", 30)] [("A", 100)] [("B", 100)] []
      [] 1 = [("A", 1/2), ("B", 1/2)] ∧
    ParseAllocation.expandRaw exTablesMkt exEmpMkt ≠
      ParseAllocation.marketingSpecApply [("SC", 30), ("NI LLC", 30)] [("A", 100)] [("B", 100)]
        [] [] 1 := by
  have htrim : jsTrim "Marketing" = "Marketing" := by decide
  have hdirect : lookupA ParseAllocation.directMap "Marketing" = none := by decide
  have hgroup : ParseAllocation.normGroup "Marketing" = "MARKETING" := by decide
  refine ⟨?_, ?_, ?_⟩ <;>
    norm_num [ParseAllocation.expandRaw, ParseAllocation.stepEntry, ParseAllocation.applyDist,
      ParseAllocation.marketingApply, ParseAllocation.marketingStep,
      ParseAllocation.marketingSpecApply, ParseAllocation.normalizePct, ParseAllocation.recAdd,
      normalizeWeights, recSum, lookupA, setA, keysA, htrim, hdirect, hgroup,
      exTablesMkt, exEmpMkt] <;> simp [lookupA, setA] <;> norm_num [lookupA, setA] <;> simp

/-- C4 counterexample: the buildInvoices percentage picker maps 1.2 to 1.2, which lies outside the unit interval, so the normalizer's result is not always in the interval from 0 to 1; moreover the workbook-route normalizer divides 1.2 (greater than its threshold 1.000001, though not greater than 1.5) by 100 and passes the negative value minus 5 through unchanged instead of returning 0. -/
theorem c4_normalizer_not_unit_bounded :
    Invoicing.pickAllocPct (.fin (6/5)) = 6/5 ∧ ¬ ((6/5 : ℚ) ≤ 1) ∧
    ParseAllocation.normalizePct (.fin (6/5)) = 3/250 ∧
    ParseAllocation.normalizePct (.fin (-5)) = -5 := by
  refine ⟨?_, by norm_num, ?_, ?_⟩ <;>
    norm_num [Invoicing.pickAllocPct, ParseAllocation.normalizePct]

/-- C6 counterexample: for payroll name zed smith, the last-name candidates are ann smith (one non-zero allocation entry) and bob smith (two non-zero entries), no first initial matches, and the resolver returns the first candidate ann smith, not the candidate with the most non-zero allocation entries. -/
theorem c6_tie_break_returns_first_candidate :
    lookupA (Invoicing.buildByFull [exAnnSmith, exBobSmith]) (normName "zed smith") = none ∧
    lookupA (Invoicing.buildByLast [exAnnSmith, exBobSmith]) (lastName "zed smith") =
      some [exAnnSmith, exBobSmith] ∧
    Invoicing.findAlloc (Invoicing.buildByFull [exAnnSmith, exBobSmith])
      (Invoicing.buildByLast [exAnnSmith, exBobSmith]) "zed smith" = some exAnnSmith ∧
    nonZeroAllocCount exAnnSmith = 1 ∧ nonZeroAllocCount exBobSmith = 2 ∧
    exAnnSmith ≠ exBobSmith := by
  refine ⟨?_, ?_, ?_, ?_, ?_, ?_⟩ <;> decide

/-- C9 counterexample: with property list containing only P and an allocation employee fully allocated to the unlisted key Q, the output contains exactly the invoice for P: the key Q discovered through allocation entries does not appear in the output, its amounts being silently dropped. -/
theorem c9_unlisted_key_dropped :
    (Invoicing.buildInvoices exPayrollBob exAllocStray).map (fun i => i.propertyKey) = ["P"] := by
  have hf : Invoicing.findAlloc (Invoicing.buildByFull [⟨"bob", false, [("Q", JNum.fin 1)]⟩])
      (Invoicing.buildByLast [⟨"bob", false, [("Q", JNum.fin 1)]⟩]) "bob" =
      some ⟨"bob", false, [("Q", JNum.fin 1)]⟩ := by decide
  norm_num [Invoicing.buildInvoices, Invoicing.seedInvoices,
    Invoicing.seedInvoice, hf,
    Invoicing.processEmployee, Invoicing.addEntry, Invoicing.add, Invoicing.bumpInv,
    Invoicing.pickAllocPct,
    Invoicing.getLine, Invoicing.setLine, Invoicing.roundInvoice, Invoicing.round2,
    Invoicing.jsRound, lookupA, setA, keysA, sortByLe, insertLe, exPayrollBob,
    exAllocStray] <;> simp [insertLe] <;> norm_num

/-- C4 amended: the buildInvoices percentage picker returns 0 on every non-finite value and on every non-positive rational, divides by 100 above 1.5, returns values in the open-closed interval from 0 to 1.5 unchanged, and its result is always nonnegative, though not bounded by 1; the workbook-route normalizer instead divides above the threshold 1.000001 and otherwise returns the value unchanged, negatives included. -/
theorem c4_pickAllocPct_characterization :
    (Invoicing.pickAllocPct .nan = 0 ∧ Invoicing.pickAllocPct .inf = 0 ∧
      Invoicing.pickAllocPct .ninf = 0) ∧
    (∀ q : ℚ, q ≤ 0 → Invoicing.pickAllocPct (.fin q) = 0) ∧
    (∀ q : ℚ, 3/2 < q → Invoicing.pickAllocPct (.fin q) = q / 100) ∧
    (∀ q : ℚ, 0 < q → q ≤ 3/2 → Invoicing.pickAllocPct (.fin q) = q) ∧
    (∀ j : JNum, 0 ≤ Invoicing.pickAllocPct j) ∧
    (∀ q : ℚ, 1000001/1000000 < q → ParseAllocation.normalizePct (.fin q) = q / 100) ∧
    (∀ q : ℚ, q ≤ 1000001/1000000 → ParseAllocation.normalizePct (.fin q) = q) := by
  refine ⟨⟨rfl, rfl, rfl⟩, ?_, ?_, ?_, ?_, ?_, ?_⟩
  · intro q h
    simp [Invoicing.pickAllocPct, h]
  · intro q h
    have h0 : ¬ q ≤ 0 := by linarith
    simp [Invoicing.pickAllocPct, h, h0]
  · intro q h0 h1
    have h2 : ¬ q ≤ 0 := by linarith
    have h3 : ¬ (3/2 : ℚ) < q := by linarith
    simp [Invoicing.pickAllocPct, h2, h3]
  · intro j
    cases j with
    | fin q =>
      simp only [Invoicing.pickAllocPct]
      split_ifs with h1 h2
      · exact le_refl 0
      · exact div_nonneg (not_le.mp h1).le (by norm_num)
      · exact (not_le.mp h1).le
    | nan => simp [Invoicing.pickAllocPct]
    | inf => simp [Invoicing.pickAllocPct]
    | ninf => simp [Invoicing.pickAllocPct]
  · intro q h
    simp [ParseAllocation.normalizePct, h]
  · intro q h
    have h1 : ¬ (1000001/1000000 : ℚ) < q := by linarith
    simp [ParseAllocation.normalizePct, h1]

/-- C4 witness: the characterization applied at concrete inputs 2, 1, and minus 1. -/
theorem c4_pickAllocPct_characterization_witness :
    Invoicing.pickAllocPct (.fin 2) = 2 / 100 ∧ Invoicing.pickAllocPct (.fin 1) = 1 ∧
    Invoicing.pickAllocPct (.fin (-1)) = 0 ∧ ParseAllocation.normalizePct (.fin 1) = 1 :=
  ⟨c4_pickAllocPct_characterization.2.2.1 2 (by norm_num),
   c4_pickAllocPct_characterization.2.2.2.1 1 (by norm_num) (by norm_num),
   c4_pickAllocPct_characterization.2.1 (-1) (by norm_num),
   c4_pickAllocPct_characterization.2.2.2.2.2.2 1 (by norm_num)⟩

/-- C5: the spec-modelled normalizeWeights divides every entry by the map's own sum, so a map of non-zero sum normalizes to total exactly 1, a zero-sum map normalizes to the empty map, and the raw values 10 and 30 normalize to one quarter and three quarters. -/
theorem c5_normalizeWeights_spec :
    (∀ w : Assoc String ℚ, recSum w ≠ 0 → recSum (normalizeWeights w) = 1) ∧
    (∀ w : Assoc String ℚ, recSum w ≠ 0 → ∀ k,
      lookupA (normalizeWeights w) k = (lookupA w k).map (fun v => v / recSum w)) ∧
    (∀ w : Assoc String ℚ, recSum w = 0 → normalizeWeights w = []) ∧
    normalizeWeights [("A", 10), ("B", 30)] = [("A", 1/4), ("B", 3/4)] := by
  have hsum : ∀ (l : List (String × ℚ)) (s : ℚ),
      ((l.map (fun kv => (kv.1, kv.2 / s))).map Prod.snd).sum = (l.map Prod.snd).sum / s := by
    intro l s
    induction l with
    | nil => simp
    | cons hd tl ih =>
      simp only [List.map_cons, List.sum_cons, ih]
      rw [div_add_div_same]
  have hlook : ∀ (l : List (String × ℚ)) (s : ℚ) (k : String),
      lookupA (l.map (fun kv => (kv.1, kv.2 / s))) k = (lookupA l k).map (fun v => v / s) := by
    intro l s k
    induction l with
    | nil => simp [lookupA]
    | cons hd tl ih =>
      obtain ⟨k1, v1⟩ := hd
      by_cases hk : k1 = k
      · simp [lookupA, hk]
      · simp [lookupA, hk, ih]
  have hne : ∀ w : Assoc String ℚ, recSum w ≠ 0 →
      normalizeWeights w = w.map (fun kv => (kv.1, kv.2 / recSum w)) := by
    intro w h
    simp [normalizeWeights, h]
  refine ⟨?_, ?_, ?_, ?_⟩
  · intro w h
    rw [hne w h]
    show ((w.map (fun kv => (kv.1, kv.2 / recSum w))).map Prod.snd).sum = 1
    rw [hsum]
    exact div_self h
  · intro w h k
    rw [hne w h]
    exact hlook w (recSum w) k
  · intro w h
    simp [normalizeWeights, h]
  · have h40 : recSum [("A", (10:ℚ)), ("B", 30)] = 40 := by norm_num [recSum]
    have h1 := hne [("A", (10:ℚ)), ("B", 30)] (by rw [h40]; norm_num)
    rw [h40] at h1
    rw [h1]
    norm_num

/-- C5 witness: the sum-1 and zero-sum clauses applied at concrete maps. -/
theorem c5_normalizeWeights_spec_witness :
    recSum (normalizeWeights [("A", 10)]) = 1 ∧ normalizeWeights [("A", (0:ℚ))] = [] :=
  ⟨c5_normalizeWeights_spec.1 [("A", 10)] (by norm_num [recSum]),
   c5_normalizeWeights_spec.2.2.1 [("A", (0:ℚ))] (by norm_num [recSum])⟩

/-- C7: a payroll employee whose normalized full name has no exact match and whose last-name key has no candidates is skipped entirely: the engine's output with that employee present is identical to the output without them, and in particular they add 0 to every line of every property's invoice; buildInvoices is a total function, so with well-typed inputs it always returns a result. -/
theorem c7_unmatched_contributes_nothing (alloc : Invoicing.AllocationTable)
    (pre post : List Invoicing.PayrollEmployee) (emp : Invoicing.PayrollEmployee)
    (h1 : lookupA (Invoicing.buildByFull alloc.employees) (normName emp.name) = none)
    (h2 : lookupA (Invoicing.buildByLast alloc.employees) (lastName emp.name) = none) :
    Invoicing.buildInvoices ⟨pre ++ emp :: post⟩ alloc =
      Invoicing.buildInvoices ⟨pre ++ post⟩ alloc := by
  have hnone : Invoicing.findAlloc (Invoicing.buildByFull alloc.employees)
      (Invoicing.buildByLast alloc.employees) emp.name = none := by
    simp [Invoicing.findAlloc, h1, h2]
  simp only [Invoicing.buildInvoices]
  rw [Invoicing.foldl_processEmployee_skip _ _ _ hnone]

/-- C7 witness: the skip applied to an employee absent from an empty allocation table. -/
theorem c7_unmatched_contributes_nothing_witness :
    Invoicing.buildInvoices ⟨[⟨"zed", 100, 0, 0, 0⟩]⟩ ⟨[], []⟩ =
      Invoicing.buildInvoices ⟨[]⟩ ⟨[], []⟩ :=
  c7_unmatched_contributes_nothing ⟨[], []⟩ [] [] ⟨"zed", 100, 0, 0, 0⟩ (by decide) (by decide)

/-- C8 counterexample: adding the amount 0.001 to salaryREC of the seeded property P appends a contribution record even though 0.001 is below the 0.005 threshold the claim states; the code threshold is 0.00001. -/
theorem c8_dust_below_claimed_threshold_recorded :
    Invoicing.breakdownAt
      (Invoicing.add (Invoicing.seedInvoices [⟨"P", "P", ""⟩]) "P" Invoicing.Line.salaryREC
        (1/1000) "e" none none) "P" Invoicing.Line.salaryREC =
      [⟨"e", 1/1000, none, none⟩] ∧
    ¬ ((5/1000 : ℚ) ≤ |(1/1000 : ℚ)|) := by
  constructor
  · have habs : |(1/1000 : ℚ)| = 1/1000 := abs_of_pos (by norm_num)
    norm_num [Invoicing.breakdownAt, Invoicing.add, Invoicing.seedInvoices,
      Invoicing.seedInvoice, Invoicing.getLine, Invoicing.setLine, lookupA, setA, habs]
  · rw [abs_of_pos (by norm_num : (0:ℚ) < 1/1000)]
    norm_num

/-- C8 amended: a contribution is appended to the breakdown list of a property and line exactly when the amount is at least 0.00001 in absolute value (not 0.005) and the property key has a seeded invoice; any smaller amount, and any amount aimed at an unknown key, leaves the invoice map untouched. -/
theorem c8_contribution_threshold :
    (∀ (s : Assoc String Invoicing.PropertyInvoice) (k : String) (line : Invoicing.Line)
      (amount : ℚ) (employee : String) (ap ba : Option ℚ), |amount| < 1/100000 →
      Invoicing.add s k line amount employee ap ba = s) ∧
    (∀ (s : Assoc String Invoicing.PropertyInvoice) (k : String) (line : Invoicing.Line)
      (amount : ℚ) (employee : String) (ap ba : Option ℚ), 1/100000 ≤ |amount| →
      lookupA s k = none → Invoicing.add s k line amount employee ap ba = s) ∧
    (∀ (s : Assoc String Invoicing.PropertyInvoice) (k : String) (line : Invoicing.Line)
      (amount : ℚ) (employee : String) (ap ba : Option ℚ) (inv : Invoicing.PropertyInvoice),
      1/100000 ≤ |amount| → lookupA s k = some inv →
      Invoicing.breakdownAt (Invoicing.add s k line amount employee ap ba) k line =
        Invoicing.breakdownAt s k line ++ [⟨employee, amount, ap, ba⟩]) := by
  have hguard : ∀ amount : ℚ, 1/100000 ≤ |amount| →
      ¬ (amount = 0 ∨ |amount| < 1/100000) := by
    intro amount h
    rintro (rfl | h2)
    · simp at h
      linarith
    · linarith
  refine ⟨?_, ?_, ?_⟩
  · intro s k line amount employee ap ba h
    rw [Invoicing.add, if_pos (Or.inr h)]
  · intro s k line amount employee ap ba h h2
    rw [Invoicing.add, if_neg (hguard amount h)]
    simp [h2]
  · intro s k line amount employee ap ba inv h h2
    rw [Invoicing.add, if_neg (hguard amount h)]
    simp only [h2, Invoicing.breakdownAt, lookupA_setA_self, Option.map_some, Option.getD_some,
      Invoicing.bumpInv_breakdown]
    simp [lookupA_setA_self, Invoicing.bumpInv_breakdown, h2]

/-- C2 amended: when every redistribution table's positive scalar-normalized shares sum to at most 1 and every allocation entry's normalized percent is nonnegative, the raw expanded weight map of an employee sums to at most the sum of the per-entry normalized percents of its allocation map. -/
theorem c2_fanout_bounded (tb : ParseAllocation.Tables) (e : ParseAllocation.EmployeeTop)
    (h1 : ParseAllocation.posShareSum tb.scREC ≤ 1)
    (h2 : ParseAllocation.posShareSum tb.scNR ≤ 1)
    (h3 : ParseAllocation.posShareSum tb.niREC ≤ 1)
    (h4 : ParseAllocation.posShareSum tb.niNR ≤ 1)
    (h5 : ParseAllocation.posShareSum tb.jvPRS ≤ 1)
    (h6 : ParseAllocation.posShareSum tb.mktGroups ≤ 1)
    (hE : ∀ kv ∈ e.topAlloc, 0 ≤ ParseAllocation.normalizePct kv.2) :
    recSum (ParseAllocation.expandRaw tb e) ≤ ParseAllocation.entryPctSum e := by
  have h := ParseAllocation.recSum_expandFold_le tb e.recoverable h1 h2 h3 h4 h5 h6
    e.topAlloc hE []
  rw [ParseAllocation.expandRaw]
  rw [ParseAllocation.entryPctSum]
  have h0 : recSum ([] : Assoc String ℚ) = 0 := rfl
  linarith [h, h0.le]

/-- C2 witness: the bound applied to the employee allocating a quarter to SC over tables whose positive shares each sum to exactly 1. -/
theorem c2_fanout_bounded_witness :
    recSum (ParseAllocation.expandRaw
      ⟨[("A", JNum.fin 100)], [("A", JNum.fin 100)], [("A", JNum.fin 100)],
       [("A", JNum.fin 100)], [("A", JNum.fin 100)], [("SC", JNum.fin 100)]⟩
      ⟨"x", true, [("SC", JNum.fin 25)]⟩) ≤
      ParseAllocation.entryPctSum ⟨"x", true, [("SC", JNum.fin 25)]⟩ :=
  c2_fanout_bounded _ _
    (by norm_num [ParseAllocation.posShareSum, ParseAllocation.normalizePct])
    (by norm_num [ParseAllocation.posShareSum, ParseAllocation.normalizePct])
    (by norm_num [ParseAllocation.posShareSum, ParseAllocation.normalizePct])
    (by norm_num [ParseAllocation.posShareSum, ParseAllocation.normalizePct])
    (by norm_num [ParseAllocation.posShareSum, ParseAllocation.normalizePct])
    (by norm_num [ParseAllocation.posShareSum, ParseAllocation.normalizePct])
    (by norm_num [ParseAllocation.normalizePct])

/-- C3 amended: for an entry whose trimmed target is not a direct property and group-normalizes to the marketing literal, the expansion step is independent of the employee's recoverable flag and of the recoverable-regime tables, and equals the marketing cascade application (per-value normalized shares through scNR, niNR and jvPRS) at the scalar-normalized percent. -/
theorem c3_marketing_uses_nr_tables (tb : ParseAllocation.Tables)
    (x y : Assoc String JNum) (b1 b2 : Bool) (w : Assoc String ℚ) (kv : String × JNum)
    (hdir : lookupA ParseAllocation.directMap (jsTrim kv.1) = none)
    (hgroup : ParseAllocation.normGroup (jsTrim kv.1) = "MARKETING") :
    ParseAllocation.stepEntry { tb with scREC := x, niREC := y } b1 w kv =
      ParseAllocation.stepEntry tb b2 w kv ∧
    ParseAllocation.stepEntry tb b1 w kv =
      (if ParseAllocation.normalizePct kv.2 ≤ 0 then w
       else ParseAllocation.marketingApply tb w (ParseAllocation.normalizePct kv.2)) := by
  obtain ⟨sc1, sc2, ni1, ni2, jv, mkt⟩ := tb
  have hm : ∀ (pct : ℚ) (w2 : Assoc String ℚ),
      ParseAllocation.marketingApply ⟨x, sc2, y, ni2, jv, mkt⟩ w2 pct =
        ParseAllocation.marketingApply ⟨sc1, sc2, ni1, ni2, jv, mkt⟩ w2 pct :=
    fun _ _ => rfl
  constructor <;>
    simp [ParseAllocation.stepEntry, hdir, hgroup, hm]

/-- C3 amended witness: the independence and formula instantiated at the concrete marketing tables with modified recoverable-regime tables and both flag values. -/
theorem c3_marketing_uses_nr_tables_witness :
    ParseAllocation.stepEntry
      { exTablesMkt with scREC := [("Z", JNum.fin 100)], niREC := [("Y", JNum.fin 1)] }
      true [] ("Marketing", JNum.fin 1) =
      ParseAllocation.stepEntry exTablesMkt false [] ("Marketing", JNum.fin 1) ∧
    ParseAllocation.stepEntry exTablesMkt true [] ("Marketing", JNum.fin 1) =
      (if ParseAllocation.normalizePct (JNum.fin 1) ≤ 0 then ([] : Assoc String ℚ)
       else ParseAllocation.marketingApply exTablesMkt []
         (ParseAllocation.normalizePct (JNum.fin 1))) :=
  c3_marketing_uses_nr_tables exTablesMkt [("Z", JNum.fin 100)] [("Y", JNum.fin 1)] true false
    [] ("Marketing", JNum.fin 1) (by decide) (by decide)

/-- C6 amended: the resolver returns the exact normalized-full-name match when one exists; otherwise the single last-name candidate; otherwise a first-initial match; and otherwise the first candidate in allocation-table order. -/
theorem c6_findAlloc_resolution :
    (∀ (byFull : Assoc String Invoicing.AllocationEmployee)
       (byLast : Assoc String (List Invoicing.AllocationEmployee)) (n : String)
       (e : Invoicing.AllocationEmployee), lookupA byFull (normName n) = some e →
       Invoicing.findAlloc byFull byLast n = some e) ∧
    (∀ byFull byLast (n : String) (c : Invoicing.AllocationEmployee),
       lookupA byFull (normName n) = none → lookupA byLast (lastName n) = some [c] →
       Invoicing.findAlloc byFull byLast n = some c) ∧
    (∀ byFull byLast (n : String) (cs : List Invoicing.AllocationEmployee)
       (m : Invoicing.AllocationEmployee), lookupA byFull (normName n) = none →
       lookupA byLast (lastName n) = some cs → cs.length ≠ 1 →
       cs.find? (fun c => firstInitial c.name = firstInitial n) = some m →
       Invoicing.findAlloc byFull byLast n = some m) ∧
    (∀ byFull byLast (n : String) (cs : List Invoicing.AllocationEmployee),
       lookupA byFull (normName n) = none → lookupA byLast (lastName n) = some cs →
       cs.length ≠ 1 →
       cs.find? (fun c => firstInitial c.name = firstInitial n) = none →
       Invoicing.findAlloc byFull byLast n = cs.head?) := by
  refine ⟨?_, ?_, ?_, ?_⟩
  · intro byFull byLast n e h
    simp [Invoicing.findAlloc, h]
  · intro byFull byLast n c h1 h2
    simp [Invoicing.findAlloc, h1, h2]
  · intro byFull byLast n cs m h1 h2 h3 h4
    simp [Invoicing.findAlloc, h1, h2, h3, h4]
  · intro byFull byLast n cs h1 h2 h3 h4
    simp [Invoicing.findAlloc, h1, h2, h3, h4]

/-- C6 amended witness: the fallback clause applied to the two smith candidates with no matching initial returns the head of the candidate list. -/
theorem c6_findAlloc_resolution_witness :
    Invoicing.findAlloc (Invoicing.buildByFull [exAnnSmith, exBobSmith])
      (Invoicing.buildByLast [exAnnSmith, exBobSmith]) "zed smith" =
      ([exAnnSmith, exBobSmith] : List Invoicing.AllocationEmployee).head? :=
  c6_findAlloc_resolution.2.2.2 (Invoicing.buildByFull [exAnnSmith, exBobSmith])
    (Invoicing.buildByLast [exAnnSmith, exBobSmith]) "zed smith" [exAnnSmith, exBobSmith]
    (by decide) (by decide) (by decide) (by decide)

/-- C8 witness: the three clauses applied at concrete inputs 0, an unknown key, and the seeded property P. -/
theorem c8_contribution_threshold_witness :
    Invoicing.add [] "P" Invoicing.Line.salaryREC 0 "e" none none = [] ∧
    Invoicing.add [] "P" Invoicing.Line.salaryREC 1 "e" none none = [] ∧
    Invoicing.breakdownAt
      (Invoicing.add (Invoicing.seedInvoices [⟨"P", "P", ""⟩]) "P" Invoicing.Line.salaryREC 1
        "e" none none) "P" Invoicing.Line.salaryREC =
      Invoicing.breakdownAt (Invoicing.seedInvoices [⟨"P", "P", ""⟩]) "P"
        Invoicing.Line.salaryREC ++ [⟨"e", 1, none, none⟩] :=
  ⟨c8_contribution_threshold.1 [] "P" Invoicing.Line.salaryREC 0 "e" none none (by norm_num),
   c8_contribution_threshold.2.1 [] "P" Invoicing.Line.salaryREC 1 "e" none none (by norm_num)
     (by simp [lookupA]),
   c8_contribution_threshold.2.2 (Invoicing.seedInvoices [⟨"P", "P", ""⟩]) "P"
     Invoicing.Line.salaryREC 1 "e" none none (Invoicing.seedInvoice ⟨"P", "P", ""⟩)
     (by norm_num) (by simp [Invoicing.seedInvoices, Invoicing.seedInvoice, lookupA, setA])⟩

/-- Allocation table with no property list and one employee referencing keys Q and A. -/
def exAllocDerived : Invoicing.AllocationTable :=
  ⟨[], [⟨"bob", false, [("Q", JNum.fin 1), ("A", JNum.fin 1)]⟩]⟩

/-- C9 amended: the output contains exactly one invoice per distinct listed property key (no duplicates, and with a non-empty property list a key appears exactly when listed); with an empty payroll every emitted invoice is zero-filled; and the older ensureInv helper of part_006 does create a missing invoice on demand with the key as fallback label, though the lib/invoicing buildInvoices drops unknown keys instead. -/
theorem c9_one_invoice_per_known_property :
    (∀ (payroll : Invoicing.PayrollParseResult) (alloc : Invoicing.AllocationTable),
      ((Invoicing.buildInvoices payroll alloc).map (fun i => i.propertyKey)).Nodup) ∧
    (∀ (payroll : Invoicing.PayrollParseResult) (alloc : Invoicing.AllocationTable)
      (k : String), alloc.properties ≠ [] →
      (k ∈ (Invoicing.buildInvoices payroll alloc).map (fun i => i.propertyKey) ↔
        k ∈ alloc.properties.map Invoicing.Property.key)) ∧
    (∀ (alloc : Invoicing.AllocationTable) (inv : Invoicing.PropertyInvoice),
      inv ∈ Invoicing.buildInvoices ⟨[]⟩ alloc →
      inv.salaryREC = 0 ∧ inv.salaryNR = 0 ∧ inv.overtime = 0 ∧ inv.holREC = 0 ∧
      inv.holNR = 0 ∧ inv.er401k = 0 ∧ inv.total = 0 ∧ inv.breakdown = []) ∧
    (∀ (m : Assoc String Invoicing.PropertyInvoice) (k : String), lookupA m k = none →
      lookupA (Part006.ensureInv m k none) k =
        some ⟨k, k, "", 0, 0, 0, 0, 0, 0, 0, []⟩) := by
  refine ⟨?_, ?_, ?_, ?_⟩
  · intro payroll alloc
    rw [Invoicing.map_key_buildInvoices]
    exact ((sortByLe_perm strLe _).nodup_iff).mpr (Invoicing.keysA_seedInvoices_nodup _)
  · intro payroll alloc k h
    rw [Invoicing.map_key_buildInvoices, if_neg h, mem_sortByLe,
      Invoicing.mem_keysA_seedInvoices]
  · intro alloc inv h
    simp only [Invoicing.buildInvoices, List.foldl_nil] at h
    rw [mem_sortByLe] at h
    rcases List.mem_map.mp h with ⟨kv, hkv, rfl⟩
    rcases Invoicing.mem_seedInvoices hkv with ⟨p, _, rfl⟩
    rw [Invoicing.roundInvoice_seedInvoice]
    exact ⟨rfl, rfl, rfl, rfl, rfl, rfl, rfl, rfl⟩
  · intro m k h
    simp [Part006.ensureInv, h, lookupA_setA_self]

/-- C9 amended witness: membership and the ensureInv fallback at concrete inputs: the listed key P of the stray-allocation table, and the missing key Q of an empty invoice map. -/
theorem c9_one_invoice_per_known_property_witness :
    ("P" ∈ (Invoicing.buildInvoices exPayrollBob exAllocStray).map (fun i => i.propertyKey) ↔
      "P" ∈ exAllocStray.properties.map Invoicing.Property.key) ∧
    lookupA (Part006.ensureInv [] "Q" none) "Q" =
      some ⟨"Q", "Q", "", 0, 0, 0, 0, 0, 0, 0, []⟩ :=
  ⟨c9_one_invoice_per_known_property.2.1 exPayrollBob exAllocStray "P" (by decide),
   c9_one_invoice_per_known_property.2.2.2 [] "Q" (by simp [lookupA])⟩

/-- C10: when the property list is empty, the invoice property set is derived as the code-point-sorted first-occurrence union of every key of every allocation employee's allocations map, each key serving as both invoice key and label; when the property list is non-empty, a key appears in the output exactly when it is listed. -/
theorem c10_derived_property_set :
    (∀ (payroll : Invoicing.PayrollParseResult) (alloc : Invoicing.AllocationTable),
      alloc.properties = [] →
      (Invoicing.buildInvoices payroll alloc).map (fun i => i.propertyKey) =
        sortByLe strLe (dedupFirst (Invoicing.allocKeys alloc.employees))) ∧
    (∀ (payroll : Invoicing.PayrollParseResult) (alloc : Invoicing.AllocationTable)
      (inv : Invoicing.PropertyInvoice), alloc.properties = [] →
      inv ∈ Invoicing.buildInvoices payroll alloc → inv.propertyLabel = inv.propertyKey) ∧
    (∀ (payroll : Invoicing.PayrollParseResult) (alloc : Invoicing.AllocationTable)
      (k : String), alloc.properties ≠ [] →
      (k ∈ (Invoicing.buildInvoices payroll alloc).map (fun i => i.propertyKey) →
        k ∈ alloc.properties.map Invoicing.Property.key)) := by
  refine ⟨?_, ?_, ?_⟩
  · intro payroll alloc h
    rw [Invoicing.map_key_buildInvoices, if_pos h]
    have hkeys : (Invoicing.deriveProps alloc.employees).map Invoicing.Property.key =
        sortByLe strLe (dedupFirst (Invoicing.allocKeys alloc.employees)) := by
      rw [Invoicing.deriveProps, List.map_map]
      have hid : (Invoicing.Property.key ∘ fun k => (⟨k, k, ""⟩ : Invoicing.Property)) = id :=
        rfl
      rw [hid, List.map_id]
    have hnd : ((Invoicing.deriveProps alloc.employees).map Invoicing.Property.key).Nodup := by
      rw [hkeys]
      exact ((sortByLe_perm strLe _).nodup_iff).mpr (nodup_dedupFirst _)
    rw [Invoicing.keysA_seedInvoices_of_nodup _ hnd, hkeys]
    exact sortByLe_idem strLe strLe_total _
  · intro payroll alloc inv h hmem
    have hseed : ∀ kv ∈ Invoicing.seedInvoices
        (if alloc.properties = [] then Invoicing.deriveProps alloc.employees
         else alloc.properties), kv.2.propertyLabel = kv.2.propertyKey := by
      intro kv hkv
      rcases Invoicing.mem_seedInvoices hkv with ⟨p, hp, rfl⟩
      rw [if_pos h] at hp
      rcases List.mem_map.mp hp with ⟨k2, _, rfl⟩
      rfl
    simp only [Invoicing.buildInvoices] at hmem
    rw [mem_sortByLe] at hmem
    rcases List.mem_map.mp hmem with ⟨kv, hkv, rfl⟩
    have hlab := Invoicing.labelInv_foldl_processEmployee
      (Invoicing.buildByFull alloc.employees) (Invoicing.buildByLast alloc.employees)
      payroll.employees _ hseed kv hkv
    rw [Invoicing.roundInvoice_propertyLabel, Invoicing.roundInvoice_propertyKey]
    exact hlab
  · intro payroll alloc k h hmem
    rw [Invoicing.map_key_buildInvoices, if_neg h, mem_sortByLe,
      Invoicing.mem_keysA_seedInvoices] at hmem
    exact hmem

/-- C10 witness: the derived, sorted union with key-as-label at a concrete table without a property list, and the only-listed-keys direction at the stray-allocation table. -/
theorem c10_derived_property_set_witness :
    (Invoicing.buildInvoices exPayrollBob exAllocDerived).map (fun i => i.propertyKey) =
      sortByLe strLe (dedupFirst (Invoicing.allocKeys exAllocDerived.employees)) ∧
    ("P" ∈ (Invoicing.buildInvoices exPayrollBob exAllocStray).map (fun i => i.propertyKey) →
      "P" ∈ exAllocStray.properties.map Invoicing.Property.key) :=
  ⟨c10_derived_property_set.1 exPayrollBob exAllocDerived rfl,
   c10_derived_property_set.2.2 exPayrollBob exAllocStray "P" (by decide)⟩

end PayrollInvoicer
